import Mathlib

/-!
Verification of the paced text-injection engine (`TypingSimulator` in
`test-integration.js`) of the Stealth-AI repository.

The engine is embedded shallowly:

* a `Job` is the queued unit `{ text, delayMs }` (metadata is irrelevant to the
  verified properties and omitted);
* `Config` carries the speed/batching fields of the simulator that the batch
  pacer reads (`wpm`, `maxBatchSize`, `minBatchSize`);
* the batch path of `_runJob` is the recursive function `runBatchAux`.  The
  JavaScript loop is single-threaded: the `isPaused` flag can only change while
  the loop is suspended in an `await`, and every `await` of the batch path
  happens while dispatching an instruction (a `_sendBatch` call) or sleeping
  right after one.  A run interrupted by a single `pause()` call is therefore
  modelled by a threshold `p : Option Nat`: the flag reads `true` exactly when
  the number of instructions dispatched so far has reached `p`
  (`p = none` models an uninterrupted run).  The random-flush draws
  (`Math.random() < 0.12`) are modelled by an oracle `rs : Nat → Bool` giving
  the outcome of the k-th draw; the draws used only for delay jitter do not
  influence any emitted payload and are not modelled;
* `runnerLoop` is the `while` loop of `_ensureRunning`, `runnerLoopStop` the
  same loop when a single `stop()` call happens at global dispatch count
  `stopAt` during an unpaused run (stop clears the queue, which the loop
  observes at its next queue check, and resets the pause flag, so the
  in-flight job runs with the flag permanently false);
* `Event` values model the lifecycle emissions; `Event.sent i` marks a
  `_sendBatch` dispatch of instruction `i`;
* `jsReplaceAll` is a global single-character regex replace, and
  `sendKeysEscape` is the escaping chain of `_sendBatch`
  (`.replace` on braces, applied in sequence).

Text is represented as `List Char`.
-/

namespace StealthTyping

/-- One queued typing job: the text to inject plus the per-job delay field
(the delay is stored but never read by the pacing algorithm). -/
structure Job where
  text : List Char
  delayMs : Int
deriving DecidableEq

/-- The speed/batching configuration the batch pacer reads from the simulator. -/
structure Config where
  wpm : Int
  maxBatchSize : Nat
  minBatchSize : Nat
deriving DecidableEq

/-- One injection instruction handed to the adapter: a literal batch payload
together with the extra pause (ms) its flush carries, or a control token with
its fixed settle delay (ms). -/
inductive Instr where
  | lit (payload : List Char) (extraPauseMs : Nat)
  | enter (settleMs : Nat)
  | tab (settleMs : Nat)
deriving DecidableEq

/-- The regex class of terminal punctuation tested after each append. -/
def isTermPunct (c : Char) : Bool :=
  c = '.' || c = '!' || c = '?' || c = ',' || c = ';' || c = ':'

/-- The stronger class that triggers the 260 ms extra pause. -/
def isStrongPunct (c : Char) : Bool :=
  c = '.' || c = '!' || c = '?'

/-- Pause-threshold model of the `isPaused` flag: after a single `pause()`
call the flag reads true exactly when the dispatch count has reached the
threshold; `none` models a run with no `pause()` call. -/
def pausedAt (p : Option Nat) (d : Nat) : Bool :=
  match p with
  | none => false
  | some n => decide (n ≤ d)

/-- `flushBatch`: emits the buffer as a literal instruction when non-empty. -/
def flushList (batch : List Char) (extra : Nat) : List Instr :=
  if batch.isEmpty then [] else [Instr.lit batch extra]

/-- The batch-mode character loop of `_runJob`.  Arguments: remaining
characters, current buffer, instructions dispatched so far, random-draw
index.  Returns the emitted instructions together with the final dispatch
count and random index. -/
def runBatchAux (cfg : Config) (rs : Nat → Bool) (p : Option Nat) :
    List Char → List Char → Nat → Nat → List Instr × Nat × Nat
  | [], batch, d, k =>
    (flushList batch 0, d + (flushList batch 0).length, k)
  | c :: cs, batch, d, k =>
    if pausedAt p d then
      (flushList batch 0, d + (flushList batch 0).length, k)
    else if c = '\n' then
      let f := flushList batch 0
      let r := runBatchAux cfg rs p cs [] (d + f.length + 1) k
      (f ++ Instr.enter 80 :: r.1, r.2)
    else if c = '\t' then
      let f := flushList batch 0
      let r := runBatchAux cfg rs p cs [] (d + f.length + 1) k
      (f ++ Instr.tab 40 :: r.1, r.2)
    else
      let batch' := batch ++ [c]
      if isTermPunct c ∨ cfg.maxBatchSize ≤ batch'.length then
        let extra := if isStrongPunct c then 260 else 0
        let r := runBatchAux cfg rs p cs [] (d + 1) k
        (Instr.lit batch' extra :: r.1, r.2)
      else if cfg.minBatchSize ≤ batch'.length then
        if rs k then
          let r := runBatchAux cfg rs p cs [] (d + 1) (k + 1)
          (Instr.lit batch' 0 :: r.1, r.2)
        else
          runBatchAux cfg rs p cs batch' d (k + 1)
      else
        runBatchAux cfg rs p cs batch' d k

/-- Batch-mode run of one text from a fresh pacer state. -/
def runBatch (cfg : Config) (rs : Nat → Bool) (p : Option Nat)
    (s : List Char) : List Instr × Nat × Nat :=
  runBatchAux cfg rs p s [] 0 0

/-- Lifecycle events observable on the engine's event channel.  `sent i`
marks a `_sendBatch` dispatch (literal flushes additionally emit the
`progress` event with the same payload). -/
inductive Event where
  | queued (j : Job)
  | started
  | sent (i : Instr)
  | jobDone (j : Job)
  | pausedEv
  | resumedEv
  | stoppedEv
  | idle
deriving DecidableEq

/-- The `while` loop of `_ensureRunning`: drains the queue in order, running
each job through the batch pacer, and emits `idle` when the loop exits. -/
def runnerLoop (cfg : Config) (rs : Nat → Bool) (p : Option Nat) :
    Nat → Nat → List Job → List Event
  | _, _, [] => [Event.idle]
  | d, k, j :: q =>
    if pausedAt p d then [Event.idle]
    else
      let r := runBatchAux cfg rs p j.text [] d k
      (r.1.map Event.sent) ++ Event.jobDone j :: runnerLoop cfg rs p r.2.1 r.2.2 q

/-- `_ensureRunning` called on an idle engine: returns at once when the pause
flag already reads true, otherwise emits `started` and runs the loop. -/
def ensureRunning (cfg : Config) (rs : Nat → Bool) (p : Option Nat)
    (q : List Job) : List Event :=
  if pausedAt p 0 then [] else Event.started :: runnerLoop cfg rs p 0 0 q

/-- The runner loop when a single `stop()` call occurs at global dispatch
count `stopAt` during an unpaused run: `stop()` clears the queue (observed at
the loop's next queue check) and resets the pause flag, so the in-flight job
runs with the flag permanently false. -/
def runnerLoopStop (cfg : Config) (rs : Nat → Bool) (stopAt : Nat) :
    Nat → Nat → List Job → List Event
  | _, _, [] => [Event.idle]
  | d, k, j :: q =>
    let r := runBatchAux cfg rs none j.text [] d k
    (r.1.map Event.sent) ++ Event.jobDone j ::
      (if stopAt ≤ r.2.1 then [Event.idle]
       else runnerLoopStop cfg rs stopAt r.2.1 r.2.2 q)

/-- Mutable state of the simulator relevant to the queue-level operations. -/
structure Simulator where
  queue : List Job
  isRunning : Bool
  isPaused : Bool
  wpm : Int
  batchMode : Bool
  maxBatchSize : Nat
  minBatchSize : Nat
deriving DecidableEq

/-- JavaScript `x || d` for a numeric option field (0 is falsy). -/
def jsOrNat (n d : Nat) : Nat := if n = 0 then d else n

/-- The constructor with options `{wpm, maxBatchSize, minBatchSize}`
(each defaulted through `||` when falsy). -/
def mkSimulator (wpmOpt : Int) (maxOpt minOpt : Nat) : Simulator :=
  { queue := []
    isRunning := false
    isPaused := false
    wpm := if wpmOpt = 0 then 60 else wpmOpt
    batchMode := true
    maxBatchSize := jsOrNat maxOpt 12
    minBatchSize := jsOrNat minOpt 3 }

/-- `new TypingSimulator()` with no options. -/
def defaultSimulator : Simulator := mkSimulator 0 0 0

/-- The configuration the pacer reads from a simulator state. -/
def cfgOf (e : Simulator) : Config :=
  { wpm := e.wpm, maxBatchSize := e.maxBatchSize, minBatchSize := e.minBatchSize }

def defaultCfg : Config := cfgOf defaultSimulator

/-- `setWpm`: `this.wpm = Math.max(5, Number(wpm) || this.wpm)` over integer
arguments (0 is falsy and falls back to the current rate). -/
def setWpm (e : Simulator) (n : Int) : Simulator :=
  { e with wpm := max 5 (if n = 0 then e.wpm else n) }

/-- `enqueueText(text, delayMs)`: `none` models the JavaScript `null` and
`undefined` arguments (both falsy, like the empty string).  Returns the
created job (or `none`), the updated state, and the emitted events. -/
def enqueueText (e : Simulator) (t : Option (List Char)) (delay : Int) :
    Option Job × Simulator × List Event :=
  match t with
  | none => (none, e, [])
  | some s =>
    if s.isEmpty then (none, e, [])
    else
      let j : Job := { text := s, delayMs := delay }
      (some j, { e with queue := e.queue ++ [j] }, [Event.queued j])

/-- `resume()` on a simulator state followed by the triggered
`_ensureRunning`, with no further external call during the run: returns the
emitted event sequence. -/
def resumeRun (e : Simulator) (rs : Nat → Bool) : List Event :=
  if !e.isPaused then []
  else if e.isRunning then [Event.resumedEv]
  else Event.resumedEv :: Event.started ::
    runnerLoop (cfgOf e) rs none 0 0 e.queue

/-- Concatenation of the literal (non-control-token) payloads of an
instruction sequence, in emission order. -/
def litConcat : List Instr → List Char
  | [] => []
  | Instr.lit s _ :: is => s ++ litConcat is
  | _ :: is => litConcat is

/-- Characters that stay in literal batches (newline and tab are dispatched
as control tokens instead). -/
def keepLiteral (c : Char) : Bool :=
  if c = '\n' then false else if c = '\t' then false else true

/-- Jobs reported `job-done`, in emission order. -/
def jobsDoneOf : List Event → List Job
  | [] => []
  | Event.jobDone j :: es => j :: jobsDoneOf es
  | _ :: es => jobsDoneOf es

/-- Fixed all-false outcome of the random-flush oracle. -/
def rsFalse : Nat → Bool := fun _ => false

/-- Whether an instruction's literal payload fits in `m` characters
(control tokens trivially fit). -/
def litFits (m : Nat) : Instr → Bool
  | Instr.lit s _ => decide (s.length ≤ m)
  | Instr.enter _ => true
  | Instr.tab _ => true

/-- JavaScript `String.prototype.replace` with a global single-character
regular expression: every occurrence of `t` is replaced by `r` in one pass. -/
def jsReplaceAll (t : Char) (r : List Char) : List Char → List Char
  | [] => []
  | c :: cs => (if c = t then r else [c]) ++ jsReplaceAll t r cs

/-- The escaping chain of `_sendBatch` for a literal payload:
`payload.replace` of every opening brace, then of every closing brace
(the second pass runs on the output of the first). -/
def sendKeysEscape (s : List Char) : List Char :=
  jsReplaceAll '}' ['{', '}', '}'] (jsReplaceAll '{' ['{', '{', '}'] s)

/-- Modelled from the spec: the external key-injection primitive (absent from
the repository) interprets brace-delimited groups as control sequences; a
literal opening brace must be delivered as the group `\x7b\x7b\x7d` and a
literal closing brace as the group `\x7b\x7d\x7d`, any other brace usage
being a control sequence or a syntax error rather than plain text.  This
decoder returns the plain text a payload delivers, or `none` when the payload
is not interpreted as plain text. -/
def sendKeysDeliver : List Char → Option (List Char)
  | [] => some []
  | '{' :: '{' :: '}' :: rest => (sendKeysDeliver rest).map (fun u => '{' :: u)
  | '{' :: '}' :: '}' :: rest => (sendKeysDeliver rest).map (fun u => '}' :: u)
  | '{' :: _ => none
  | '}' :: _ => none
  | c :: rest => (sendKeysDeliver rest).map (fun u => c :: u)

/-! ### Helper lemmas -/

@[simp] theorem pausedAt_none (d : Nat) : pausedAt none d = false := rfl

theorem litConcat_flushList (batch : List Char) (e : Nat) :
    litConcat (flushList batch e) = batch := by
  cases batch <;> simp [flushList, litConcat]

theorem litConcat_append (a b : List Instr) :
    litConcat (a ++ b) = litConcat a ++ litConcat b := by
  induction a with
  | nil => rfl
  | cons i a ih => cases i <;> simp [litConcat, ih]

theorem flushList_length_le (batch : List Char) (e : Nat) :
    (flushList batch e).length ≤ 1 := by
  cases batch <;> simp [flushList]

/-- The literal payloads of an uninterrupted batch run reconstruct the
buffer followed by the input with newline and tab removed. -/
theorem litConcat_runBatchAux (cfg : Config) (rs : Nat → Bool) :
    ∀ (cs batch : List Char) (d k : Nat),
      litConcat (runBatchAux cfg rs none cs batch d k).1
        = batch ++ cs.filter keepLiteral := by
  intro cs
  induction cs with
  | nil =>
    intro batch d k
    simp [runBatchAux, litConcat_flushList]
  | cons c cs ih =>
    intro batch d k
    by_cases hn : c = '\n'
    · subst hn
      simp [runBatchAux, pausedAt, litConcat_append, litConcat_flushList,
        litConcat, ih, keepLiteral]
    · by_cases ht : c = '\t'
      · subst ht
        simp [runBatchAux, pausedAt, litConcat_append, litConcat_flushList,
          litConcat, ih, keepLiteral]
      · by_cases hf : isTermPunct c = true ∨ cfg.maxBatchSize ≤ batch.length + 1
        · simp [runBatchAux, pausedAt, hn, ht, hf, litConcat, ih, keepLiteral]
        · by_cases hm : cfg.minBatchSize ≤ batch.length + 1
          · by_cases hr : rs k
            · simp [runBatchAux, pausedAt, hn, ht, hf, hm, hr, litConcat, ih,
                keepLiteral]
            · simp [runBatchAux, pausedAt, hn, ht, hf, hm, hr, ih, keepLiteral]
          · simp [runBatchAux, pausedAt, hn, ht, hf, hm, ih, keepLiteral]

theorem mem_flushList {batch : List Char} {e0 : Nat} {s : List Char} {e : Nat}
    (h : Instr.lit s e ∈ flushList batch e0) : s = batch := by
  cases batch <;> simp_all [flushList]

/-- Every literal payload of a batch run fits in `maxBatchSize` characters,
for every pause threshold and random outcome, provided the configured
maximum is at least 1 and the buffer starts below it. -/
theorem runBatchAux_lit_le (cfg : Config) (rs : Nat → Bool) (p : Option Nat)
    (hmax : 1 ≤ cfg.maxBatchSize) :
    ∀ (cs batch : List Char) (d k : Nat), batch.length < cfg.maxBatchSize →
      ∀ (s : List Char) (e : Nat),
        Instr.lit s e ∈ (runBatchAux cfg rs p cs batch d k).1 →
          s.length ≤ cfg.maxBatchSize := by
  intro cs
  induction cs with
  | nil =>
    intro batch d k hb s e hmem
    simp only [runBatchAux] at hmem
    exact (mem_flushList hmem) ▸ Nat.le_of_lt hb
  | cons c cs ih =>
    intro batch d k hb s e hmem
    have hnil : ([] : List Char).length < cfg.maxBatchSize := by simpa using hmax
    by_cases hp : pausedAt p d = true
    · simp only [runBatchAux, hp, if_pos] at hmem
      exact (mem_flushList hmem) ▸ Nat.le_of_lt hb
    · by_cases hn : c = '\n'
      · subst hn
        simp [runBatchAux, hp, List.mem_append] at hmem
        rcases hmem with hmem | hmem
        · exact (mem_flushList hmem) ▸ Nat.le_of_lt hb
        · exact ih [] _ k hnil s e hmem
      · by_cases ht : c = '\t'
        · subst ht
          simp [runBatchAux, hp, List.mem_append] at hmem
          rcases hmem with hmem | hmem
          · exact (mem_flushList hmem) ▸ Nat.le_of_lt hb
          · exact ih [] _ k hnil s e hmem
        · by_cases hf : isTermPunct c = true ∨ cfg.maxBatchSize ≤ batch.length + 1
          · simp [runBatchAux, hp, hn, ht, hf, Instr.lit.injEq] at hmem
            rcases hmem with ⟨hs, _⟩ | hmem
            · subst hs; simp; omega
            · exact ih [] (d + 1) k hnil s e hmem
          · have hlt : batch.length + 1 < cfg.maxBatchSize := by
              rcases Nat.lt_or_ge (batch.length + 1) cfg.maxBatchSize with h | h
              · exact h
              · exact absurd (Or.inr h) hf
            by_cases hm : cfg.minBatchSize ≤ batch.length + 1
            · by_cases hr : rs k = true
              · simp [runBatchAux, hp, hn, ht, hf, hm, hr,
                  Instr.lit.injEq] at hmem
                rcases hmem with ⟨hs, _⟩ | hmem
                · subst hs; simp; omega
                · exact ih [] (d + 1) (k + 1) hnil s e hmem
              · simp [runBatchAux, hp, hn, ht, hf, hm, hr] at hmem
                exact ih (batch ++ [c]) d (k + 1) (by simpa using hlt) s e hmem
            · simp [runBatchAux, hp, hn, ht, hf, hm] at hmem
              exact ih (batch ++ [c]) d k (by simpa using hlt) s e hmem

/-- The final dispatch count of a batch run is the initial count plus the
number of emitted instructions. -/
theorem runBatchAux_count (cfg : Config) (rs : Nat → Bool) (p : Option Nat) :
    ∀ (cs batch : List Char) (d k : Nat),
      (runBatchAux cfg rs p cs batch d k).2.1
        = d + (runBatchAux cfg rs p cs batch d k).1.length := by
  intro cs
  induction cs with
  | nil => intro batch d k; simp [runBatchAux]
  | cons c cs ih =>
    intro batch d k
    by_cases hp : pausedAt p d = true
    · simp [runBatchAux, hp]
    · by_cases hn : c = '\n'
      · subst hn
        have hrec := ih [] (d + (flushList batch 0).length + 1) k
        simp [runBatchAux, hp, hrec]
        omega
      · by_cases ht : c = '\t'
        · subst ht
          have hrec := ih [] (d + (flushList batch 0).length + 1) k
          simp [runBatchAux, hp, hrec]
          omega
        · by_cases hf : isTermPunct c = true ∨ cfg.maxBatchSize ≤ batch.length + 1
          · have hrec := ih [] (d + 1) k
            simp [runBatchAux, hp, hn, ht, hf, hrec]
            omega
          · by_cases hm : cfg.minBatchSize ≤ batch.length + 1
            · by_cases hr : rs k = true
              · have hrec := ih [] (d + 1) (k + 1)
                simp [runBatchAux, hp, hn, ht, hf, hm, hr, hrec]
                omega
              · have hrec := ih (batch ++ [c]) d (k + 1)
                simp [runBatchAux, hp, hn, ht, hf, hm, hr, hrec]
            · have hrec := ih (batch ++ [c]) d k
              simp [runBatchAux, hp, hn, ht, hf, hm, hrec]

/-- Instructions emitted under a pause threshold form a prefix of the
uninterrupted run's instructions, as long as the buffer is empty whenever
the threshold has been reached — which holds at every reachable state,
because each dispatch empties the buffer. -/
theorem runBatchAux_pause_pre (cfg : Config) (rs : Nat → Bool) (n : Nat) :
    ∀ (cs batch : List Char) (d k : Nat), (n ≤ d → batch = []) →
      ∃ t, (runBatchAux cfg rs (some n) cs batch d k).1 ++ t
            = (runBatchAux cfg rs none cs batch d k).1 := by
  intro cs
  induction cs with
  | nil =>
    intro batch d k _
    exact ⟨[], by simp [runBatchAux]⟩
  | cons c cs ih =>
    intro batch d k hinv
    by_cases hd : n ≤ d
    · have hbatch : batch = [] := hinv hd
      subst hbatch
      refine ⟨(runBatchAux cfg rs none (c :: cs) [] d k).1, ?_⟩
      have hps : pausedAt (some n) d = true := by simp [pausedAt, hd]
      simp [runBatchAux, hps, flushList]
    · have hps : pausedAt (some n) d = false := by simp [pausedAt]; omega
      by_cases hn : c = '\n'
      · subst hn
        obtain ⟨t, ht⟩ := ih [] (d + (flushList batch 0).length + 1) k
          (fun _ => rfl)
        exact ⟨t, by simp [runBatchAux, hps, List.append_assoc, ht]⟩
      · by_cases htab : c = '\t'
        · subst htab
          obtain ⟨t, ht⟩ := ih [] (d + (flushList batch 0).length + 1) k
            (fun _ => rfl)
          exact ⟨t, by simp [runBatchAux, hps, List.append_assoc, ht]⟩
        · by_cases hf : isTermPunct c = true ∨ cfg.maxBatchSize ≤ batch.length + 1
          · obtain ⟨t, ht⟩ := ih [] (d + 1) k (fun _ => rfl)
            exact ⟨t, by simp [runBatchAux, hps, hn, htab, hf, ht]⟩
          · by_cases hm : cfg.minBatchSize ≤ batch.length + 1
            · by_cases hr : rs k = true
              · obtain ⟨t, ht⟩ := ih [] (d + 1) (k + 1) (fun _ => rfl)
                exact ⟨t, by
                  simp [runBatchAux, hps, hn, htab, hf, hm, hr, ht]⟩
              · obtain ⟨t, ht⟩ := ih (batch ++ [c]) d (k + 1)
                  (fun h => absurd h hd)
                exact ⟨t, by
                  simp [runBatchAux, hps, hn, htab, hf, hm, hr, ht]⟩
            · obtain ⟨t, ht⟩ := ih (batch ++ [c]) d k (fun h => absurd h hd)
              exact ⟨t, by simp [runBatchAux, hps, hn, htab, hf, hm, ht]⟩

/-- Under a pause threshold `n`, the final dispatch count never exceeds
`n + 1`: after the flag is set, at most the control token of the same
newline/tab character step is still dispatched. -/
theorem runBatchAux_pause_bound (cfg : Config) (rs : Nat → Bool) (n : Nat) :
    ∀ (cs batch : List Char) (d k : Nat), (n ≤ d → batch = []) → d ≤ n + 1 →
      (runBatchAux cfg rs (some n) cs batch d k).2.1 ≤ n + 1 := by
  intro cs
  induction cs with
  | nil =>
    intro batch d k hinv hd
    by_cases h : n ≤ d
    · have hbatch : batch = [] := hinv h
      subst hbatch
      simpa [runBatchAux, flushList] using hd
    · have := flushList_length_le batch 0
      simp only [runBatchAux]
      omega
  | cons c cs ih =>
    intro batch d k hinv hd
    by_cases h : n ≤ d
    · have hbatch : batch = [] := hinv h
      subst hbatch
      have hps : pausedAt (some n) d = true := by simp [pausedAt, h]
      simpa [runBatchAux, hps, flushList] using hd
    · have hps : pausedAt (some n) d = false := by simp [pausedAt]; omega
      have hfl := flushList_length_le batch 0
      by_cases hn : c = '\n'
      · subst hn
        have hrec := ih [] (d + (flushList batch 0).length + 1) k
          (fun _ => rfl) (by omega)
        simpa [runBatchAux, hps] using hrec
      · by_cases htab : c = '\t'
        · subst htab
          have hrec := ih [] (d + (flushList batch 0).length + 1) k
            (fun _ => rfl) (by omega)
          simpa [runBatchAux, hps] using hrec
        · by_cases hf : isTermPunct c = true ∨ cfg.maxBatchSize ≤ batch.length + 1
          · have hrec := ih [] (d + 1) k (fun _ => rfl) (by omega)
            simpa [runBatchAux, hps, hn, htab, hf] using hrec
          · by_cases hm : cfg.minBatchSize ≤ batch.length + 1
            · by_cases hr : rs k = true
              · have hrec := ih [] (d + 1) (k + 1) (fun _ => rfl) (by omega)
                simpa [runBatchAux, hps, hn, htab, hf, hm, hr] using hrec
              · have hrec := ih (batch ++ [c]) d (k + 1)
                  (fun hh => absurd hh h) hd
                simpa [runBatchAux, hps, hn, htab, hf, hm, hr] using hrec
            · have hrec := ih (batch ++ [c]) d k (fun hh => absurd hh h) hd
              simpa [runBatchAux, hps, hn, htab, hf, hm] using hrec

/-- Extraction of a `job-done` payload from one event. -/
def jobDoneOf : Event → Option Job
  | Event.jobDone j => some j
  | _ => none

theorem jobsDoneOf_eq_filterMap (es : List Event) :
    jobsDoneOf es = es.filterMap jobDoneOf := by
  induction es with
  | nil => rfl
  | cons e es ih => cases e <;> simp [jobsDoneOf, jobDoneOf, ih]

theorem jobsDoneOf_sent_append (l : List Instr) (es : List Event) :
    jobsDoneOf (l.map Event.sent ++ es) = jobsDoneOf es := by
  induction l with
  | nil => rfl
  | cons i l ih => simpa [jobsDoneOf] using ih

/-- The runner loop reports `job-done` for exactly the queued jobs, in queue
order, when no pause occurs. -/
theorem runnerLoop_fifo (cfg : Config) (rs : Nat → Bool) :
    ∀ (q : List Job) (d k : Nat),
      jobsDoneOf (runnerLoop cfg rs none d k q) = q := by
  intro q
  induction q with
  | nil => intro d k; rfl
  | cons j q ih =>
    intro d k
    simp [runnerLoop, pausedAt, jobsDoneOf_sent_append, jobsDoneOf, ih]

/-! ### Concrete inputs used by the claim theorems -/

/-- The input of Scenario B, the text `Hi.` followed by a newline. -/
def hiText : List Char := ['H', 'i', '.', '\n']

def hiJob : Job := { text := hiText, delayMs := 0 }

/-- A job whose batch run consists of 10 instructions, each a punctuation
flush that completes its character step. -/
def tenPunctText : List Char :=
  ['a', '.', 'b', '.', 'c', '.', 'd', '.', 'e', '.',
   'f', '.', 'g', '.', 'h', '.', 'i', '.', 'j', '.']

def tenPunctJob : Job := { text := tenPunctText, delayMs := 0 }

/-- A job whose batch run also consists of 10 instructions, but where the
2nd instruction is the buffer flush of a newline step, so that the ENTER
token follows it within the same character step. -/
def tenNewlineText : List Char :=
  ['a', '.', 'b', 'c', '\n', 'd', '.', 'e', '.',
   'f', '.', 'g', '.', 'h', '.', 'i', '.', 'j', '.']

/-- The default simulator put into the Paused state with an empty queue. -/
def pausedIdleSimulator : Simulator := { defaultSimulator with isPaused := true }

/-! ### Claim theorems -/

/-- Claim C1, counterexample: for the non-empty batch-mode input consisting
of the letter a followed by a newline, the concatenated literal payloads of
an uninterrupted run are just the letter a — the newline is emitted as the
ENTER control token — so the original input text is not reconstructed. -/
theorem claim1_counterexample :
    litConcat (runBatch defaultCfg rsFalse none ['a', '\n']).1 = ['a'] ∧
    litConcat (runBatch defaultCfg rsFalse none ['a', '\n']).1 ≠ ['a', '\n'] := by
  decide

/-- Claim C1, amended: for every non-empty input text processed in batch
mode during an uninterrupted run, concatenating the literal payloads in
emission order reconstructs the original input text with its newline and
tab characters removed (those characters are dispatched as ENTER and TAB
control tokens instead), for every configuration and random outcome. -/
theorem claim1_amended (cfg : Config) (rs : Nat → Bool) (s : List Char)
    (hs : s ≠ []) :
    litConcat (runBatch cfg rs none s).1 = s.filter keepLiteral := by
  simpa [runBatch] using litConcat_runBatchAux cfg rs s [] 0 0

theorem claim1_amended_witness :
    (['H', 'i', '.'] : List Char) ≠ [] ∧
    litConcat (runBatch defaultCfg rsFalse none ['H', 'i', '.']).1
      = List.filter keepLiteral ['H', 'i', '.'] :=
  ⟨by decide, claim1_amended defaultCfg rsFalse ['H', 'i', '.'] (by decide)⟩

/-- Claim C3, counterexample: on the default engine state (60 words per
minute), calling `setWpm 0` leaves the rate at 60, not 5 — the argument 0 is
falsy, so `Number(wpm) || this.wpm` falls back to the prior rate. -/
theorem claim3_counterexample :
    (setWpm defaultSimulator 0).wpm = 60 ∧ (setWpm defaultSimulator 0).wpm ≠ 5 := by
  decide

/-- Claim C3, amended: for every prior engine state, `setWpm (-10)` clamps
to exactly 5, while `setWpm 0` is treated as an absent argument and yields
the prior rate clamped to a minimum of 5. -/
theorem claim3_amended (e : Simulator) :
    (setWpm e (-10)).wpm = 5 ∧ (setWpm e 0).wpm = max 5 e.wpm := by
  constructor
  · simp [setWpm]
  · simp [setWpm]

/-- Claim C5: in batch mode, no emitted literal payload ever exceeds
`maxBatchSize` characters, for every constructor option, input text, random
outcome and pause threshold (the constructor defaults a falsy
`maxBatchSize` option to 12, so the effective maximum is at least 1). -/
theorem claim5_max_batch (wpmOpt : Int) (maxOpt minOpt : Nat)
    (rs : Nat → Bool) (p : Option Nat) (s : List Char) :
    ((runBatch (cfgOf (mkSimulator wpmOpt maxOpt minOpt)) rs p s).1.all
      (litFits (mkSimulator wpmOpt maxOpt minOpt).maxBatchSize)) = true := by
  have hmax : 1 ≤ (mkSimulator wpmOpt maxOpt minOpt).maxBatchSize := by
    simp only [mkSimulator, jsOrNat]
    split <;> omega
  rw [List.all_eq_true]
  intro i hi
  have hnil : ([] : List Char).length
      < (cfgOf (mkSimulator wpmOpt maxOpt minOpt)).maxBatchSize := by
    simpa [cfgOf] using hmax
  cases i with
  | lit s' e =>
    have := runBatchAux_lit_le (cfgOf (mkSimulator wpmOpt maxOpt minOpt)) rs p
      (by simpa [cfgOf] using hmax) s [] 0 0 hnil s' e hi
    simpa [litFits, cfgOf] using this
  | enter _ => simp [litFits]
  | tab _ => simp [litFits]

/-- Claim C6: `enqueueText` with `null`/`undefined` (modelled `none`) or the
empty string returns `null`, leaves the state unchanged and emits nothing;
with any non-empty string it returns the created job, appends it to the
queue and emits exactly the `queued` event. -/
theorem claim6_enqueue_validation (e : Simulator) (d : Int) :
    enqueueText e none d = (none, e, []) ∧
    enqueueText e (some []) d = (none, e, []) ∧
    ∀ (c : Char) (cs : List Char),
      enqueueText e (some (c :: cs)) d
        = (some { text := c :: cs, delayMs := d },
           { e with queue := e.queue ++ [{ text := c :: cs, delayMs := d }] },
           [Event.queued { text := c :: cs, delayMs := d }]) := by
  refine ⟨rfl, rfl, ?_⟩
  intro c cs
  simp [enqueueText]

/-- Claim C7: for every queue of enqueued jobs, an uninterrupted run of the
runner reports `job-done` for exactly the enqueued jobs in enqueue order
(FIFO), regardless of each job's `delayMs` field — the quantification is
over all queues, hence over all delay values. -/
theorem claim7_fifo (cfg : Config) (rs : Nat → Bool) (q : List Job) :
    jobsDoneOf (ensureRunning cfg rs none q) = q := by
  simpa [ensureRunning, jobsDoneOf] using runnerLoop_fifo cfg rs q 0 0

/-- Claim C8: evaluating the `_sendBatch` escaping at a literal batch that
consists of a single opening brace.  The two sequential replacements yield
the five characters open-open-open-close-close: the closing brace introduced
by the first replacement is re-escaped by the second.  The injection
mechanism does not deliver that payload as the plain text open-brace
(`sendKeysDeliver` returns `none`), while the output of the first
replacement alone would be delivered correctly; a lone closing brace is
escaped correctly, isolating the defect to the second pass re-processing
the first pass's output. -/
theorem claim8_escape_bug :
    sendKeysEscape ['{'] = ['{', '{', '{', '}', '}'] ∧
    sendKeysDeliver (sendKeysEscape ['{']) = none ∧
    sendKeysDeliver (jsReplaceAll '{' ['{', '{', '}'] ['{']) = some ['{'] ∧
    sendKeysDeliver (sendKeysEscape ['}']) = some ['}'] := by
  decide

/-- Claim C2, counterexample: with the default configuration
(`maxBatchSize = 12 ≥ 3`), the batch run of the text `Hi.` followed by a
newline emits the literal payload `Hi.` — the triggering period is appended
to the buffer before the flush test — so the emitted sequence is not the
literal `Hi` followed by ENTER. -/
theorem claim2_counterexample :
    (runBatch defaultCfg rsFalse none hiText).1
        = [Instr.lit ['H', 'i', '.'] 260, Instr.enter 80] ∧
    (runBatch defaultCfg rsFalse none hiText).1
        ≠ [Instr.lit ['H', 'i'] 260, Instr.enter 80] := by
  decide

/-- Claim C2, amended: for the input `Hi.` followed by a newline in batch
mode with `maxBatchSize ≥ 3` (and the default `minBatchSize = 3`), for every
random outcome the emitted sequence is exactly the literal payload `Hi.`
whose flush carries the extra 260 ms pause triggered by the period, followed
by the ENTER control token with its fixed 80 ms settle delay, after which
`job-done` is emitted for the job and the runner goes idle. -/
theorem claim2_amended (m : Nat) (rs : Nat → Bool) :
    (runBatch { wpm := 60, maxBatchSize := m + 3, minBatchSize := 3 } rs
        none hiText).1
      = [Instr.lit ['H', 'i', '.'] 260, Instr.enter 80] ∧
    runnerLoop { wpm := 60, maxBatchSize := m + 3, minBatchSize := 3 } rs
        none 0 0 [hiJob]
      = [Event.sent (Instr.lit ['H', 'i', '.'] 260),
         Event.sent (Instr.enter 80), Event.jobDone hiJob, Event.idle] := by
  have h1 : ¬(m + 3 ≤ 1) := by omega
  have h2 : ¬(m + 3 ≤ 2) := by omega
  have key : runBatchAux { wpm := 60, maxBatchSize := m + 3, minBatchSize := 3 }
      rs none hiText [] 0 0
      = ([Instr.lit ['H', 'i', '.'] 260, Instr.enter 80], 2, 0) := by
    simp [hiText, runBatchAux, isTermPunct, isStrongPunct, flushList, h1, h2]
  constructor
  · simp [runBatch, key]
  · simp [runnerLoop, hiJob, key]

/-- Claim C4, counterexample: the job text `a.bc` newline `d.e.f.g.h.i.j.`
has exactly 10 pending instructions, and when `pause()` is called right
after the 2nd instruction (the flush of `bc` inside the newline character
step) has been dispatched, 3 instructions are delivered — the ENTER token of
the same character step still goes out — not exactly 2. -/
theorem claim4_counterexample :
    (runBatch defaultCfg rsFalse none tenNewlineText).1.length = 10 ∧
    (runBatch defaultCfg rsFalse (some 2) tenNewlineText).1.length = 3 := by
  decide

/-- Claim C4, amended.  Concrete part: for a job of 10 pending instructions
whose 2nd instruction completes its character step (each instruction a
punctuation flush), pausing after 2 dispatched instructions delivers exactly
those 2, emits `job-done` for the truncated job, and the remaining 8 are
never dispatched; moreover the delivered instructions are the first 2 of
the uninterrupted sequence.  General part: for every configuration, random
outcome, pause threshold `n` and input, the instructions delivered under the
pause form a prefix of the uninterrupted instruction sequence, and at most
`n + 1` instructions are dispatched in total — at most one instruction (the
control token of the same newline/tab character step) can follow the pause
point, because the flag is consulted per input character, not per
instruction. -/
theorem claim4_amended :
    (runnerLoop defaultCfg rsFalse (some 2) 0 0 [tenPunctJob]
        = [Event.sent (Instr.lit ['a', '.'] 260),
           Event.sent (Instr.lit ['b', '.'] 260),
           Event.jobDone tenPunctJob, Event.idle] ∧
     (runBatch defaultCfg rsFalse none tenPunctText).1.length = 10 ∧
     (runBatch defaultCfg rsFalse (some 2) tenPunctText).1
        = (runBatch defaultCfg rsFalse none tenPunctText).1.take 2) ∧
    (∀ (cfg : Config) (rs : Nat → Bool) (n : Nat) (s : List Char),
        ∃ t, (runBatch cfg rs (some n) s).1 ++ t = (runBatch cfg rs none s).1) ∧
    (∀ (cfg : Config) (rs : Nat → Bool) (n : Nat) (s : List Char),
        (runBatch cfg rs (some n) s).1.length ≤ n + 1) := by
  refine ⟨by decide, ?_, ?_⟩
  · intro cfg rs n s
    simpa [runBatch] using
      runBatchAux_pause_pre cfg rs n s [] 0 0 (fun _ => rfl)
  · intro cfg rs n s
    have hb := runBatchAux_pause_bound cfg rs n s [] 0 0 (fun _ => rfl)
      (by omega)
    have hc := runBatchAux_count cfg rs (some n) s [] 0 0
    simp only [runBatch]
    omega

/-- Claim C9, counterexample: `resume()` on the Paused default engine with
an empty queue still emits `started` — `_ensureRunning` emits it before
checking whether the queue is empty — contradicting the claim that no
`started` event is emitted in that case. -/
theorem claim9_counterexample :
    pausedIdleSimulator.queue = [] ∧
    Event.started ∈ resumeRun pausedIdleSimulator rsFalse := by
  decide

/-- Claim C9, amended: `resume()` called while Paused (pause flag set, runner
loop not running) clears the pause flag, emits `resumed`, and unconditionally
re-triggers start: `started` is emitted whether or not the queue is empty.
With an empty queue the full emission is `resumed`, `started`, `idle`; with a
non-empty queue the queued jobs are then processed in order. -/
theorem claim9_amended (e : Simulator) (rs : Nat → Bool)
    (hp : e.isPaused = true) (hr : e.isRunning = false) :
    (resumeRun e rs).take 2 = [Event.resumedEv, Event.started] ∧
    jobsDoneOf (resumeRun e rs) = e.queue ∧
    (e.queue = [] →
      resumeRun e rs = [Event.resumedEv, Event.started, Event.idle]) := by
  have hres : resumeRun e rs
      = Event.resumedEv :: Event.started ::
          runnerLoop (cfgOf e) rs none 0 0 e.queue := by
    simp [resumeRun, hp, hr]
  refine ⟨?_, ?_, ?_⟩
  · simp [hres]
  · simp [hres, jobsDoneOf, runnerLoop_fifo]
  · intro hq
    simp [hres, hq, runnerLoop]

theorem claim9_amended_witness :
    (resumeRun pausedIdleSimulator rsFalse).take 2
        = [Event.resumedEv, Event.started] ∧
    jobsDoneOf (resumeRun pausedIdleSimulator rsFalse)
        = pausedIdleSimulator.queue ∧
    (pausedIdleSimulator.queue = [] →
      resumeRun pausedIdleSimulator rsFalse
        = [Event.resumedEv, Event.started, Event.idle]) :=
  claim9_amended pausedIdleSimulator rsFalse rfl rfl

/-- Claim C10: when `stop()` is called while a job is in flight (running,
not paused) — at any dispatch count from 1 up to the length of the job's
instruction sequence — the in-flight job is not truncated: the run over the
stopped queue equals the uninterrupted run of that job alone, i.e. every
remaining instruction is still dispatched, `job-done` is emitted for the
job, the runner then observes the cleared queue and goes idle, and no
instruction of any other queued job is ever dispatched. -/
theorem claim10_stop_frame (cfg : Config) (rs : Nat → Bool) (j : Job)
    (q : List Job) (t : Nat)
    (h : t + 1 ≤ (runBatch cfg rs none j.text).1.length) :
    runnerLoopStop cfg rs (t + 1) 0 0 (j :: q)
      = runnerLoop cfg rs none 0 0 [j] := by
  have hc := runBatchAux_count cfg rs none j.text [] 0 0
  have hcond : t + 1 ≤ (runBatchAux cfg rs none j.text [] 0 0).2.1 := by
    simp only [runBatch] at h
    omega
  simp [runnerLoopStop, runnerLoop, hcond]

theorem claim10_stop_frame_witness :
    0 + 1 ≤ (runBatch defaultCfg rsFalse none
        (Job.mk ['a', 'b'] 0).text).1.length ∧
    runnerLoopStop defaultCfg rsFalse (0 + 1) 0 0
        [Job.mk ['a', 'b'] 0, Job.mk ['c'] 0]
      = runnerLoop defaultCfg rsFalse none 0 0 [Job.mk ['a', 'b'] 0] :=
  ⟨by decide, claim10_stop_frame defaultCfg rsFalse (Job.mk ['a', 'b'] 0)
      [Job.mk ['c'] 0] 0 (by decide)⟩

end StealthTyping
